import Mathlib

/-!
Shallow embedding of `main.py` of the PingAnalyzator repository.

Timestamps are modelled as natural numbers counting seconds (the epoch is
0001-01-01 00:00:00, matching Python `datetime`'s proleptic Gregorian
calendar); `datetime.replace(minute=0, second=0)` becomes truncation to a
multiple of 3600.  Raw text lines are modelled as `List Char`.  The regular
expressions of the source are unfolded into explicit scanning functions with
the same matching semantics (anchored prefix match for `re.match`, leftmost
match for `re.search`, greedy `\d+` runs).
-/

namespace PingAnalyzer

/-- The two probe outcomes stored in the `result` column (`"success"` /
`"failure"`, `main.py` lines 31-37). -/
inductive PResult where
  | success
  | failure
deriving DecidableEq, Repr

/-- One parsed log line (`main.py` lines 39-44). The `hour` column of the
source is derived (`timestamp.replace(minute=0, second=0)`), see
`PingEvent.hour` below. -/
structure PingEvent where
  timestamp : Nat
  result : PResult
  response_time : Option Nat
deriving DecidableEq, Repr

/-- Truncate an epoch-second count to its hour, the model of
`timestamp.replace(minute=0, second=0[, microsecond=0])` (lines 41 and 111;
parsed timestamps always have `microsecond = 0`). -/
def hourOf (t : Nat) : Nat := t / 3600 * 3600

/-- The `hour` column attached to every event at parse time (line 41). -/
def PingEvent.hour (e : PingEvent) : Nat := hourOf e.timestamp

/-! ## Line parser (`read_ping_data`, lines 8-48) -/

/-- Decimal value of a digit character. -/
def digitVal (c : Char) : Nat := c.toNat - 48

/-- Numeric value of a digit string (`int(...)` on a `\d+` match). -/
def natOfDigits (l : List Char) : Nat := l.foldl (fun a c => a * 10 + digitVal c) 0

/-- `str.strip()`: drop whitespace from both ends of the line (line 22). -/
def stripChars (cs : List Char) : List Char :=
  ((cs.dropWhile Char.isWhitespace).reverse.dropWhile Char.isWhitespace).reverse

/-- Does `cs` start with the literal pattern `pat`? -/
def startsWith : List Char → List Char → Bool
  | [], _ => true
  | _ :: _, [] => false
  | p :: ps, c :: cs => p == c && startsWith ps cs

/-- Python's substring test `pat in cs` (line 31). -/
def containsSub (pat : List Char) : List Char → Bool
  | [] => pat.isEmpty
  | c :: cs => startsWith pat (c :: cs) || containsSub pat cs

/-- The year/month/day/hour/minute/second fields captured by the timestamp
regex `(\d{4}/\d{2}/\d{2} \d{2}:\d{2}:\d{2})` (line 23). -/
structure DateTimeFields where
  year : Nat
  month : Nat
  day : Nat
  hour : Nat
  minute : Nat
  second : Nat
deriving DecidableEq, Repr

/-- The anchored regex match of line 23: the line must begin with
`dddd/dd/dd dd:dd:dd` (19 characters); on a match the six numeric fields are
returned. -/
def tsForm (cs : List Char) : Option DateTimeFields :=
  match cs with
  | y1 :: y2 :: y3 :: y4 :: a1 :: m1 :: m2 :: a2 :: d1 :: d2 :: a3 ::
    h1 :: h2 :: a4 :: n1 :: n2 :: a5 :: s1 :: s2 :: _ =>
      if y1.isDigit && y2.isDigit && y3.isDigit && y4.isDigit &&
         m1.isDigit && m2.isDigit && d1.isDigit && d2.isDigit &&
         h1.isDigit && h2.isDigit && n1.isDigit && n2.isDigit &&
         s1.isDigit && s2.isDigit &&
         a1 == '/' && a2 == '/' && a3 == ' ' && a4 == ':' && a5 == ':' then
        some { year := ((digitVal y1 * 10 + digitVal y2) * 10 + digitVal y3) * 10 + digitVal y4
             , month := digitVal m1 * 10 + digitVal m2
             , day := digitVal d1 * 10 + digitVal d2
             , hour := digitVal h1 * 10 + digitVal h2
             , minute := digitVal n1 * 10 + digitVal n2
             , second := digitVal s1 * 10 + digitVal s2 }
      else none
  | _ => none

/-- Gregorian leap-year rule used by Python `datetime`. -/
def isLeap (y : Nat) : Bool := (y % 4 == 0 && y % 100 != 0) || y % 400 == 0

/-- Length of a month (only meaningful for `1 ≤ m ≤ 12`). -/
def daysInMonth (y m : Nat) : Nat :=
  if m = 2 then (if isLeap y then 29 else 28)
  else if m = 4 ∨ m = 6 ∨ m = 9 ∨ m = 11 then 30
  else 31

/-- Validity check performed by `datetime.strptime(..., '%Y/%m/%d %H:%M:%S')`
(line 28): field values must form a real calendar date-time, else a
`ValueError` is raised (caught at line 45, the line is dropped with a printed
warning). -/
def validDT (f : DateTimeFields) : Bool :=
  decide (1 ≤ f.year) && decide (1 ≤ f.month) && decide (f.month ≤ 12) &&
  decide (1 ≤ f.day) && decide (f.day ≤ daysInMonth f.year f.month) &&
  decide (f.hour ≤ 23) && decide (f.minute ≤ 59) && decide (f.second ≤ 59)

/-- Number of leap years in `1..y`. -/
def leapsBefore (y : Nat) : Nat := y / 4 - y / 100 + y / 400

/-- Days in the months of year `y` strictly before month `m`. -/
def daysBeforeMonth (y m : Nat) : Nat :=
  ((List.range (m - 1)).map (fun k => daysInMonth y (k + 1))).sum

/-- Days from 0001-01-01 to the given date. -/
def daysFromYear1 (f : DateTimeFields) : Nat :=
  365 * (f.year - 1) + leapsBefore (f.year - 1) + daysBeforeMonth f.year f.month + (f.day - 1)

/-- Epoch-second value of a parsed timestamp: the shallow model of the
`datetime` object built at line 28. -/
def toSeconds (f : DateTimeFields) : Nat :=
  (daysFromYear1 f * 24 + f.hour) * 3600 + f.minute * 60 + f.second

/-- `"Reply from"` (line 31). -/
def replyPat : List Char := "Reply from".data

/-- `"time="` of the latency regex `time=(\d+)ms` (line 33). -/
def timePat : List Char := "time=".data

/-- `"ms"` of the latency regex (line 33). -/
def msPat : List Char := "ms".data

/-- Try the latency pattern anchored at the start of `cs`: literal `time=`,
then a maximal non-empty digit run, then literal `ms`.  (Greedy `\d+` never
needs to backtrack because the character after the digit run must be `m`,
which is not a digit.) -/
def latencyAt (cs : List Char) : Option Nat :=
  if startsWith timePat cs then
    let rest := cs.drop 5
    let digs := rest.takeWhile Char.isDigit
    let after := rest.dropWhile Char.isDigit
    if digs.isEmpty then none
    else if startsWith msPat after then some (natOfDigits digs) else none
  else none

/-- `re.search(r'time=(\d+)ms', line)` (line 33): leftmost match wins. -/
def findLatency : List Char → Option Nat
  | [] => none
  | c :: cs =>
    match latencyAt (c :: cs) with
    | some n => some n
    | none => findLatency cs

/-- `"Target Host="` of the host regex (line 16). -/
def hostPat : List Char := "Target Host=".data

/-- Match `\d+\.` at the start of `cs`, returning the digit run and the
remainder after the dot. -/
def digitsDot (cs : List Char) : Option (List Char × List Char) :=
  let ds := cs.takeWhile Char.isDigit
  let r := cs.dropWhile Char.isDigit
  if ds.isEmpty then none
  else
    match r with
    | '.' :: r2 => some (ds, r2)
    | _ => none

/-- Match `\d+\.\d+\.\d+\.\d+` at the start of `cs` and return the matched
characters (the captured host address). -/
def ipAt (cs : List Char) : Option (List Char) :=
  match digitsDot cs with
  | none => none
  | some (a, r1) =>
    match digitsDot r1 with
    | none => none
    | some (b, r2) =>
      match digitsDot r2 with
      | none => none
      | some (c, r3) =>
        let d := r3.takeWhile Char.isDigit
        if d.isEmpty then none
        else some (a ++ '.' :: b ++ '.' :: c ++ '.' :: d)

/-- The host regex anchored at the start of `cs`. -/
def hostAt (cs : List Char) : Option (List Char) :=
  if startsWith hostPat cs then ipAt (cs.drop 12) else none

/-- `re.search(r'Target Host=(\d+\.\d+\.\d+\.\d+)', first_line)` (line 16):
leftmost match wins. -/
def findHost : List Char → Option (List Char)
  | [] => none
  | c :: cs =>
    match hostAt (c :: cs) with
    | some h => some h
    | none => findHost cs

/-- Outcome of processing one non-header line (lines 21-46). -/
inductive LineResult where
  | skipped
  | warned
  | ev (e : PingEvent)
deriving DecidableEq, Repr

/-- The per-line parser, lines 21-46: strip the line; if it does not begin
with the timestamp pattern it is silently skipped; if the timestamp fields do
not form a valid date-time, `strptime` raises and the line is dropped with a
warning; otherwise an event is produced — `success` iff the line contains
`"Reply from"`, with the optional latency extracted by `findLatency`. -/
def parseLine (raw : List Char) : LineResult :=
  let line := stripChars raw
  match tsForm line with
  | none => LineResult.skipped
  | some f =>
    if validDT f then
      if containsSub replyPat line then
        LineResult.ev { timestamp := toSeconds f, result := PResult.success
                      , response_time := findLatency line }
      else
        LineResult.ev { timestamp := toSeconds f, result := PResult.failure
                      , response_time := none }
    else LineResult.warned

/-- The event produced by a line, if any. -/
def eventOf (raw : List Char) : Option PingEvent :=
  match parseLine raw with
  | LineResult.ev e => some e
  | _ => none

/-- The event sequence accumulated by the loop at lines 21-46. -/
def parseEvents (lines : List (List Char)) : List PingEvent :=
  lines.filterMap eventOf

/-- `read_ping_data` (lines 8-48): the first line is consumed for host
extraction only; events come from the remaining lines.  On an empty file
`readline()` returns `""`, giving no host and no events. -/
def readPingData (lines : List (List Char)) : Option (List Char) × List PingEvent :=
  match lines with
  | [] => (none, [])
  | first :: rest => (findHost (stripChars first), parseEvents rest)

/-! ## Disconnection detector (`analyze_ping_data`, lines 76-106) -/

/-- One emitted disconnection record (lines 86-98). -/
structure Disconnection where
  start_time : Nat
  end_time : Nat
  duration : Int
  count : Nat
deriving DecidableEq, Repr

/-- The `current_disconnection` dict while a run is open (lines 86-89). -/
structure OpenDisc where
  start_time : Nat
  count : Nat
deriving DecidableEq, Repr

/-- The loop state of lines 76-78: `failure_count`, `current_disconnection`,
and the accumulated `disconnections` list. -/
structure DetectState where
  failure_count : Nat
  current : Option OpenDisc
  out : List Disconnection
deriving DecidableEq, Repr

/-- `df.iloc[i]['timestamp']` for an in-range positional index (the default 0
is never consulted where this is used: the index is proven in range). -/
def tsAt (events : List PingEvent) (i : Nat) : Nat :=
  ((events[i]?).map PingEvent.timestamp).getD 0

/-- Close an open run at `endTime` (lines 96-97 and 104-105): `duration` is
`end - start` in seconds. -/
def closeDisc (c : OpenDisc) (endTime : Nat) : Disconnection :=
  { start_time := c.start_time, end_time := endTime
  , duration := (endTime : Int) - (c.start_time : Int), count := c.count }

/-- The body of the `for i, row in df.iterrows()` loop (lines 80-100).
On a failure the counter is incremented; if it equals the threshold a run is
opened with `start_time = df.iloc[i - T + 1]['timestamp']` (written
`i + 1 - T` in truncated ℕ-subtraction, equal to the source's `i - T + 1`
because the counter value bounds give `T ≤ i + 1` there); if it exceeds the
threshold and a run is open, the run's count is bumped.  On a success an open
run is closed at this event's timestamp and the counter resets to 0. -/
def detectStep (events : List PingEvent) (T : Nat) (i : Nat)
    (s : DetectState) (e : PingEvent) : DetectState :=
  if e.result = PResult.failure then
    let fc := s.failure_count + 1
    if fc = T then
      { failure_count := fc
      , current := some { start_time := tsAt events (i + 1 - T), count := T }
      , out := s.out }
    else
      match s.current with
      | some c =>
        if T < fc then
          { failure_count := fc, current := some { c with count := c.count + 1 }, out := s.out }
        else
          { failure_count := fc, current := some c, out := s.out }
      | none => { failure_count := fc, current := none, out := s.out }
  else
    match s.current with
    | some c =>
      { failure_count := 0, current := none, out := s.out ++ [closeDisc c e.timestamp] }
    | none => { failure_count := 0, current := none, out := s.out }

/-- The loop of lines 80-100, processing the suffix `rest` of `events`
starting at positional index `i`. -/
def detectGo (events : List PingEvent) (T : Nat) :
    Nat → List PingEvent → DetectState → DetectState
  | _, [], s => s
  | i, e :: rest, s => detectGo events T (i + 1) rest (detectStep events T i s e)

/-- Initial loop state (lines 76-78). -/
def initState : DetectState := { failure_count := 0, current := none, out := [] }

/-- The final loop state over the whole event sequence. -/
def detectLoop (events : List PingEvent) (T : Nat) : DetectState :=
  detectGo events T 0 events initState

/-- `df.iloc[-1]['timestamp']` (line 104); only consulted when a run is
open, which implies the event list is nonempty. -/
def lastTs (events : List PingEvent) : Nat :=
  ((events.getLast?).map PingEvent.timestamp).getD 0

/-- The full disconnection extraction (lines 76-106): run the loop, then
flush a still-open run using the last event's timestamp (lines 102-106). -/
def analyze_disconnections (events : List PingEvent) (T : Nat) : List Disconnection :=
  let s := detectLoop events T
  match s.current with
  | some c => s.out ++ [closeDisc c (lastTs events)]
  | none => s.out

/-! ## Hourly aggregation (`analyze_ping_data`, lines 60-73) -/

/-- One row of the `hourly_stats` frame (lines 67-73). `packet_loss_rate` is
modelled over ℚ (the source computes the same quotient in machine floats). -/
structure HourlyStat where
  hour : Nat
  total_pings : Nat
  successful_pings : Nat
  packet_loss_count : Nat
  packet_loss_rate : Rat
deriving DecidableEq, Repr

/-- Insertion sort step on hour keys. -/
def insertSorted (x : Nat) : List Nat → List Nat
  | [] => [x]
  | y :: ys => if x ≤ y then x :: y :: ys else y :: insertSorted x ys

/-- Sort a list of hour keys ascending; `df.groupby` sorts its group keys. -/
def sortNat (l : List Nat) : List Nat := l.foldr insertSorted []

/-- The distinct hour buckets of the input, ascending — the group keys of
`df.groupby('hour')` (line 67). -/
def hoursSorted (events : List PingEvent) : List Nat :=
  sortNat (events.map PingEvent.hour).dedup

/-- The aggregation row for one hour bucket (lines 67-73): `total_pings` is
the group size, `successful_pings` counts `result == 'success'`,
`packet_loss_count = total - successes`, `packet_loss_rate` the percentage. -/
def statFor (events : List PingEvent) (h : Nat) : HourlyStat :=
  let grp := events.filter (fun e => e.hour == h)
  let tot := grp.length
  let ok := (grp.filter (fun e => e.result == PResult.success)).length
  { hour := h, total_pings := tot, successful_pings := ok
  , packet_loss_count := tot - ok
  , packet_loss_rate := ((tot - ok : Nat) : Rat) / (tot : Rat) * 100 }

/-- `hourly_stats` (lines 67-73): one row per distinct observed hour bucket.
(The source only reaches this code with a nonempty event list — `main` aborts
earlier on empty data.) -/
def hourlyStats (events : List PingEvent) : List HourlyStat :=
  (hoursSorted events).map (statFor events)

/-- Overall packet loss rate (lines 61-64). -/
def overallLossRate (events : List PingEvent) : Rat :=
  let tot := events.length
  let ok := (events.filter (fun e => e.result == PResult.success)).length
  if 0 < tot then ((tot - ok : Nat) : Rat) / (tot : Rat) * 100 else 0

/-! ## Hourly disconnection counts and densification (lines 108-131) -/

/-- Add one occurrence of key `h` to an insertion-ordered association list —
the model of the dict update at lines 112-115. -/
def insertCount (l : List (Nat × Nat)) (h : Nat) : List (Nat × Nat) :=
  match l with
  | [] => [(h, 1)]
  | (k, v) :: rest => if k = h then (k, v + 1) :: rest else (k, v) :: insertCount rest h

/-- `hourly_disconnection_counts` (lines 109-115): per-hour counts of
disconnection starts, keyed by `start_time` truncated to the hour. -/
def discHourCounts (discs : List Disconnection) : List (Nat × Nat) :=
  discs.foldl (fun acc d => insertCount acc (hourOf d.start_time)) []

/-- Dictionary lookup with default 0 — the effect of
`reindex(all_hours, fill_value=0)` on a present `count` column. -/
def lookupCount (l : List (Nat × Nat)) (h : Nat) : Nat :=
  ((l.find? (fun p => p.1 == h)).map Prod.snd).getD 0

/-- The `hourly_disconnection_df` frame: its row index, and its `count`
column *if the frame has one*.  `pd.DataFrame([])` (empty disconnection
list, line 118) produces a frame with no columns at all, modelled by
`counts = none`; `reindex` aligns only the index and leaves the column set
unchanged. -/
structure HourlyDiscDF where
  index : List Nat
  counts : Option (List Nat)
deriving DecidableEq, Repr

/-- The first hour bucket of the input, `df['hour'].min()` (line 127). -/
def minHour (events : List PingEvent) : Nat :=
  ((events.map PingEvent.hour).min?).getD 0

/-- The last hour bucket of the input, `df['hour'].max()` (line 128). -/
def maxHour (events : List PingEvent) : Nat :=
  ((events.map PingEvent.hour).max?).getD 0

/-- `pd.date_range(start=lo, end=hi, freq='H')` for hour-aligned endpoints:
`lo, lo + 3600, …` up to and including `hi` (both are multiples of 3600). -/
def hourRange (lo hi : Nat) : List Nat :=
  (List.range ((hi - lo) / 3600 + 1)).map (fun k => lo + 3600 * k)

/-- Lines 117-131: build the per-hour disconnection frame from the counts
dict (no `count` column when the dict is empty), then — when the event frame
is nonempty — reindex it over every hour of the observed range, filling 0
where the `count` column exists. -/
def hourlyDiscDF (events : List PingEvent) (discs : List Disconnection) : HourlyDiscDF :=
  let pairs := discHourCounts discs
  let base : HourlyDiscDF :=
    if pairs.isEmpty then { index := [], counts := none }
    else { index := pairs.map Prod.fst, counts := some (pairs.map Prod.snd) }
  if events.isEmpty then base
  else
    let allHours := hourRange (minHour events) (maxHour events)
    { index := allHours
    , counts := base.counts.map (fun _ => allHours.map (fun h => lookupCount pairs h)) }

/-! ## Top-level flow (`main`, lines 310-371) -/

/-- The two fatal, user-visible errors of the spec's taxonomy, raised by the
checks at lines 327-337 of `main` (missing host / no valid data lines). -/
inductive AnalysisError where
  | missingHost
  | emptyData
deriving DecidableEq, Repr

/-- The analysis outputs handed to reporting (return of `analyze_ping_data`,
line 133, restricted to the structures the claims are about). -/
structure AnalysisResults where
  hourly : List HourlyStat
  disconnections : List Disconnection
  overall_loss_rate : Rat
  hourly_disc : HourlyDiscDF
deriving DecidableEq, Repr

/-- `main`'s analysis flow (lines 325-341): read the file; abort with a
user-visible error when no host was found or no line yielded an event
(producing no partial results); otherwise run `analyze_ping_data`. -/
def runAnalysis (lines : List (List Char)) (T : Nat) : Except AnalysisError AnalysisResults :=
  let r := readPingData lines
  match r.1 with
  | none => Except.error AnalysisError.missingHost
  | some _ =>
    if r.2.isEmpty then Except.error AnalysisError.emptyData
    else
      Except.ok
        { hourly := hourlyStats r.2
        , disconnections := analyze_disconnections r.2 T
        , overall_loss_rate := overallLossRate r.2
        , hourly_disc := hourlyDiscDF r.2 (analyze_disconnections r.2 T) }

/-! ## The specification's state machine (claim C1)

The disconnection detector as §4.3 of the spec words it: the only difference
from `detectStep` is that a further failure bumps an open run whenever the
run is open, without the source's additional `failure_count > T` test. -/

/-- §4.3 transition rules, written from the spec's words. -/
def specStep (events : List PingEvent) (T : Nat) (i : Nat)
    (s : DetectState) (e : PingEvent) : DetectState :=
  match e.result with
  | PResult.failure =>
    let fc := s.failure_count + 1
    if fc = T then
      { failure_count := fc
      , current := some { start_time := tsAt events (i + 1 - T), count := T }
      , out := s.out }
    else
      match s.current with
      | some c =>
        { failure_count := fc, current := some { c with count := c.count + 1 }, out := s.out }
      | none => { failure_count := fc, current := none, out := s.out }
  | PResult.success =>
    match s.current with
    | some c =>
      { failure_count := 0, current := none, out := s.out ++ [closeDisc c e.timestamp] }
    | none => { failure_count := 0, current := none, out := s.out }

/-- The spec's machine run over the suffix of `events` from index `i`. -/
def specGo (events : List PingEvent) (T : Nat) :
    Nat → List PingEvent → DetectState → DetectState
  | _, [], s => s
  | i, e :: rest, s => specGo events T (i + 1) rest (specStep events T i s e)

/-- The spec's machine over the whole event sequence. -/
def specLoop (events : List PingEvent) (T : Nat) : DetectState :=
  specGo events T 0 events initState

/-! ## Invariants and sample inputs used by the claim theorems -/

/-- A failure probe at time `t`. -/
def failAt (t : Nat) : PingEvent := { timestamp := t, result := PResult.failure, response_time := none }

/-- A success probe at time `t`. -/
def succAt (t : Nat) : PingEvent := { timestamp := t, result := PResult.success, response_time := none }

/-- Timestamps strictly increase along the event list. -/
def StrictTimes (events : List PingEvent) : Prop :=
  List.Pairwise (fun a b => a.timestamp < b.timestamp) events

/-- Timestamps are non-decreasing along the event list. -/
def NonDecTimes (events : List PingEvent) : Prop :=
  List.Pairwise (fun a b => a.timestamp ≤ b.timestamp) events

/-- Every emitted run and any open run has at least `T` counted failures. -/
def CountsOK (T : Nat) (s : DetectState) : Prop :=
  (∀ d ∈ s.out, T ≤ d.count) ∧ (∀ c, s.current = some c → T ≤ c.count)

/-- Whenever a run is open, the consecutive-failure counter is at least the
threshold (the reachable-state invariant separating `detectStep` from
`specStep`). -/
def OpenGE (T : Nat) (s : DetectState) : Prop :=
  ∀ c, s.current = some c → T ≤ s.failure_count

/-- Emitted failure counts plus the live counter — the quantity bounded by
the number of failure events seen so far. -/
def countMass (s : DetectState) : Nat :=
  (s.out.map Disconnection.count).sum + s.failure_count

/-- An open run never counts more failures than the live counter. -/
def CurLe (s : DetectState) : Prop :=
  ∀ c, s.current = some c → c.count ≤ s.failure_count

/-- Number of failure events in a list. -/
def failLen (events : List PingEvent) : Nat :=
  (events.filter (fun e => e.result == PResult.failure)).length

/-- Loop invariant for the non-overlap/ordering claim, relating the state
after processing the first `i` events (of a strictly chronological stream) to
the full event list. -/
structure OrderInv (events : List PingEvent) (i : Nat) (s : DetectState) : Prop where
  fcLe : s.failure_count ≤ i
  iLe : i ≤ events.length
  outPair : s.out.Pairwise (fun a b => a.end_time < b.start_time)
  outSE : ∀ d ∈ s.out, d.start_time ≤ d.end_time
  outFuture : ∀ d ∈ s.out, ∀ k, i - s.failure_count ≤ k →
    ∀ hk : k < events.length, d.end_time < (events[k]).timestamp
  curr : ∀ c, s.current = some c →
    (∀ d ∈ s.out, d.end_time < c.start_time) ∧
    (∃ j, ∃ hj : j < events.length, j < i ∧ c.start_time = (events[j]).timestamp)

/-- A sample well-formed success data line (with host-like text and latency),
used to witness the parser claims. -/
def sampleReplyLine : List Char :=
  "0001/01/01 00:00:00 Reply from 1.2.3.4: bytes=32 time=5ms TTL=64".data

/-- A line whose first 19 characters match the timestamp regex but whose
month field (13) makes `strptime` raise: the parser drops it with a warning
instead of producing an event. -/
def badMonthLine : List Char := "2024/13/01 00:00:00 Request timed out.".data

/-- `[F,F,F]` at seconds 0,1,2 — the end-of-stream open-run example. -/
def exFFF : List PingEvent := [failAt 0, failAt 1, failAt 2]

/-- `[F,F,S]` at seconds 0,1,2 — the threshold-boundary example. -/
def exFFS : List PingEvent := [failAt 0, failAt 1, succAt 2]

/-- Seven probes all carrying the *same* timestamp (non-decreasing but not
strictly increasing): two threshold-3 runs separated by one success. -/
def exSameTs : List PingEvent :=
  [failAt 0, failAt 0, failAt 0, succAt 0, failAt 0, failAt 0, failAt 0]

/-- Two threshold-3 runs at strictly increasing timestamps. -/
def exTwoRuns : List PingEvent :=
  [failAt 0, failAt 1, failAt 2, succAt 3, failAt 4, failAt 5, failAt 6]

/-! ## Theorems -/

/-- C2: if the consecutive-failure run is still open after the last event,
exactly one additional `Disconnection` is appended, whose `end_time` is the
timestamp of the very last event of the stream; and on `[F,F,F]` at seconds
0,1,2 with `T = 3` exactly one disconnection is emitted, ending at the last
event's timestamp with `failure_count = 3`. -/
theorem end_of_stream_open_run_flushed (events : List PingEvent) (T : Nat) (c : OpenDisc)
    (h : (detectLoop events T).current = some c) :
    analyze_disconnections events T =
      (detectLoop events T).out ++ [closeDisc c (lastTs events)] ∧
    analyze_disconnections exFFF 3 =
      [{ start_time := 0, end_time := 2, duration := 2, count := 3 }] := by
  constructor
  · simp only [analyze_disconnections]
    rw [h]
  · rfl

/-- Witness for `end_of_stream_open_run_flushed` at the `[F,F,F]` input. -/
theorem end_of_stream_open_run_flushed_witness :
    (detectLoop exFFF 3).current = some { start_time := 0, count := 3 } ∧
    analyze_disconnections exFFF 3 =
      (detectLoop exFFF 3).out ++
        [closeDisc { start_time := 0, count := 3 } (lastTs exFFF)] :=
  ⟨rfl, (end_of_stream_open_run_flushed exFFF 3 { start_time := 0, count := 3 } rfl).1⟩

/-- C3 (code-bug evidence): on an input with events but zero disconnections
(a single success probe), the hourly-disconnection frame produced by lines
108-131 has a row for every hour of the observed range but *no* `count`
column at all (`pd.DataFrame([])` has no columns and `reindex` only aligns
the index), contradicting the claimed `count = 0` entries; the plotting
consumer (`hourly_disconnection_df['count']`, line 284) then fails. -/
theorem hourly_disc_frame_lacks_count_column :
    analyze_disconnections [succAt 0] 3 = [] ∧
    (hourlyDiscDF [succAt 0] (analyze_disconnections [succAt 0] 3)).index = [0] ∧
    (hourlyDiscDF [succAt 0] (analyze_disconnections [succAt 0] 3)).counts = none :=
  ⟨rfl, rfl, rfl⟩

/-- C9: if the header line yields no host match, or no remaining line yields
an event, the whole analysis aborts with a user-visible error and produces no
results (the error constructor of `Except` carries no partial output). -/
theorem fatal_errors_abort_analysis :
    (∀ lines T, (readPingData lines).1 = none →
      runAnalysis lines T = Except.error AnalysisError.missingHost) ∧
    (∀ lines T, (readPingData lines).2 = [] →
      ∃ err, runAnalysis lines T = Except.error err) := by
  constructor
  · intro lines T h
    simp only [runAnalysis]
    rw [h]
  · intro lines T h
    cases hh : (readPingData lines).1 with
    | none =>
      refine ⟨AnalysisError.missingHost, ?_⟩
      simp only [runAnalysis]
      rw [hh]
    | some host =>
      refine ⟨AnalysisError.emptyData, ?_⟩
      simp only [runAnalysis]
      rw [hh, h]
      rfl

/-- Witness for `fatal_errors_abort_analysis` on a one-line input whose
header has no host. -/
theorem fatal_errors_abort_analysis_witness :
    (readPingData [[]]).1 = none ∧
    runAnalysis [[]] 3 = Except.error AnalysisError.missingHost :=
  ⟨rfl, fatal_errors_abort_analysis.1 [[]] 3 rfl⟩

/-- C10: the first input line is consumed solely for host extraction — the
event sequence comes exclusively from the remaining lines — and even a first
line that is itself a well-formed data line (here a valid reply line, which
parsed as a non-header line would yield an event) contributes no event. -/
theorem first_line_never_yields_event :
    (∀ first rest, (readPingData (first :: rest)).2 = parseEvents rest) ∧
    parseLine sampleReplyLine =
      LineResult.ev { timestamp := 0, result := PResult.success, response_time := some 5 } ∧
    (readPingData [sampleReplyLine]).2 = [] :=
  ⟨fun _ _ => rfl, rfl, rfl⟩

/-- One detector step preserves the threshold bound on emitted and open run
counts. -/
theorem detectStep_countsOK (events : List PingEvent) (T i : Nat) (s : DetectState)
    (e : PingEvent) (h : CountsOK T s) : CountsOK T (detectStep events T i s e) := by
  obtain ⟨hout, hcur⟩ := h
  by_cases hf : e.result = PResult.failure
  · by_cases hT : s.failure_count + 1 = T
    · simp only [detectStep, if_pos hf, if_pos hT, CountsOK]
      refine ⟨hout, fun c hc => ?_⟩
      simp only [Option.some.injEq] at hc
      subst hc
      exact le_refl T
    · cases hs : s.current with
      | none =>
        simp only [detectStep, if_pos hf, if_neg hT, hs, CountsOK]
        exact ⟨hout, fun c hc => by simp at hc⟩
      | some c0 =>
        by_cases hlt : T < s.failure_count + 1
        · simp only [detectStep, if_pos hf, if_neg hT, hs, if_pos hlt, CountsOK]
          refine ⟨hout, fun c hc => ?_⟩
          simp only [Option.some.injEq] at hc
          subst hc
          exact le_trans (hcur c0 hs) (Nat.le_succ _)
        · simp only [detectStep, if_pos hf, if_neg hT, hs, if_neg hlt, CountsOK]
          refine ⟨hout, fun c hc => ?_⟩
          simp only [Option.some.injEq] at hc
          subst hc
          exact hcur c0 hs
  · cases hs : s.current with
    | none =>
      simp only [detectStep, if_neg hf, hs, CountsOK]
      exact ⟨hout, fun c hc => by simp at hc⟩
    | some c0 =>
      simp only [detectStep, if_neg hf, hs, CountsOK]
      refine ⟨fun d hd => ?_, fun c hc => by simp at hc⟩
      rcases List.mem_append.mp hd with hd | hd
      · exact hout d hd
      · rcases List.mem_singleton.mp hd with rfl
        exact hcur c0 hs

/-- The detector loop preserves the threshold bound. -/
theorem detectGo_countsOK (events : List PingEvent) (T : Nat) :
    ∀ (rest : List PingEvent) (i : Nat) (s : DetectState),
    CountsOK T s → CountsOK T (detectGo events T i rest s) := by
  intro rest
  induction rest with
  | nil => intro i s h; exact h
  | cons e rest ih =>
    intro i s h
    simp only [detectGo]
    exact ih (i + 1) _ (detectStep_countsOK events T i s e h)

/-- C4: every emitted `Disconnection` has `failure_count ≥ T` — a failure
streak shorter than the threshold never yields a record, not even via the
end-of-stream flush — and on `[F,F,S]` with `T = 3` the emitted list is
empty. -/
theorem emitted_runs_reach_threshold :
    (∀ (events : List PingEvent) (T : Nat),
      ∀ d ∈ analyze_disconnections events T, T ≤ d.count) ∧
    analyze_disconnections exFFS 3 = [] := by
  constructor
  · intro events T d hd
    have hinit : CountsOK T initState :=
      ⟨fun d hd => absurd hd (List.not_mem_nil d), fun c hc => by cases hc⟩
    have h : CountsOK T (detectLoop events T) :=
      detectGo_countsOK events T events 0 initState hinit
    simp only [analyze_disconnections] at hd
    cases hcur : (detectLoop events T).current with
    | none =>
      rw [hcur] at hd
      exact h.1 d hd
    | some c =>
      rw [hcur] at hd
      rcases List.mem_append.mp hd with hd | hd
      · exact h.1 d hd
      · rcases List.mem_singleton.mp hd with rfl
        exact h.2 c hcur
  · rfl

/-- Witness for `emitted_runs_reach_threshold` at the `[F,F,F]` input. -/
theorem emitted_runs_reach_threshold_witness :
    ({ start_time := 0, end_time := 2, duration := 2, count := 3 } : Disconnection)
      ∈ analyze_disconnections exFFF 3 ∧
    3 ≤ ({ start_time := 0, end_time := 2, duration := 2, count := 3 } : Disconnection).count :=
  ⟨by decide, emitted_runs_reach_threshold.1 exFFF 3 _ (by decide)⟩

/-- On any state whose open run (if any) has already seen `T` failures, the
source's step and the spec's step agree, and the property is preserved. -/
theorem specStep_eq_detectStep (events : List PingEvent) (T i : Nat) (s : DetectState)
    (e : PingEvent) (h : OpenGE T s) :
    specStep events T i s e = detectStep events T i s e ∧
    OpenGE T (detectStep events T i s e) := by
  cases hr : e.result with
  | success =>
    simp only [specStep, detectStep, hr]
    constructor
    · rfl
    · cases hs : s.current <;> simp only [hs] <;> exact fun c hc => by simp at hc
  | failure =>
    simp only [specStep, detectStep, hr]
    by_cases hT : s.failure_count + 1 = T
    · simp only [if_pos hT]
      exact ⟨rfl, fun c hc => le_of_eq hT.symm⟩
    · simp only [if_neg hT]
      cases hs : s.current with
      | none =>
        exact ⟨rfl, fun c hc => by simp at hc⟩
      | some c0 =>
        have hge : T ≤ s.failure_count := h c0 hs
        have hlt : T < s.failure_count + 1 := Nat.lt_succ_of_le hge
        simp only [if_pos hlt]
        exact ⟨rfl, fun c hc => Nat.le_succ_of_le hge⟩

/-- The two loops agree from any state satisfying the open-run bound. -/
theorem specGo_eq_detectGo (events : List PingEvent) (T : Nat) :
    ∀ (rest : List PingEvent) (i : Nat) (s : DetectState),
    OpenGE T s → specGo events T i rest s = detectGo events T i rest s := by
  intro rest
  induction rest with
  | nil => intro i s _; rfl
  | cons e rest ih =>
    intro i s h
    obtain ⟨heq, hinv⟩ := specStep_eq_detectStep events T i s e h
    simp only [specGo, detectGo, heq]
    exact ih (i + 1) _ hinv

/-- C1: processed in chronological order with threshold `T ≥ 1`, the source's
disconnection detector (counter / open-run / emitted-list state, lines
76-100) computes exactly the state machine specified in §4.3: a run opens
with `start_time` taken at position `i - T + 1` and `count = T` when the
counter first reaches `T`, each further failure while the run is open bumps
the count, and a success closes an open run at its own timestamp (emitting
`end_time` and `duration = end - start`) and always resets the counter. -/
theorem detector_matches_spec_machine (events : List PingEvent) (T : Nat)
    (_hT : 1 ≤ T) : specLoop events T = detectLoop events T :=
  specGo_eq_detectGo events T events 0 initState (fun c hc => by cases hc)

/-- Witness for `detector_matches_spec_machine` on a two-run stream with the
default threshold 3. -/
theorem detector_matches_spec_machine_witness :
    1 ≤ 3 ∧ specLoop exTwoRuns 3 = detectLoop exTwoRuns 3 :=
  ⟨by decide, detector_matches_spec_machine exTwoRuns 3 (by decide)⟩

/-- Inserting into a sorted list is a permutation of consing. -/
theorem insertSorted_perm (x : Nat) (l : List Nat) : (insertSorted x l).Perm (x :: l) := by
  induction l with
  | nil => exact List.Perm.refl _
  | cons y ys ih =>
    by_cases h : x ≤ y
    · simp only [insertSorted, if_pos h]
      exact List.Perm.refl _
    · simp only [insertSorted, if_neg h]
      exact (List.Perm.cons y ih).trans (List.Perm.swap x y ys)

/-- `sortNat` permutes its input. -/
theorem sortNat_perm (l : List Nat) : (sortNat l).Perm l := by
  induction l with
  | nil => exact List.Perm.refl _
  | cons x xs ih =>
    simp only [sortNat, List.foldr_cons]
    exact (insertSorted_perm x (sortNat xs)).trans (List.Perm.cons x ih)

/-- The group keys are a permutation of the deduplicated hour column. -/
theorem hoursSorted_perm (events : List PingEvent) :
    (hoursSorted events).Perm (events.map PingEvent.hour).dedup :=
  sortNat_perm _

/-- A bucket key appears among the group keys iff some event has it. -/
theorem mem_hoursSorted (events : List PingEvent) (h : Nat) :
    h ∈ hoursSorted events ↔ h ∈ events.map PingEvent.hour :=
  ((hoursSorted_perm events).mem_iff).trans List.mem_dedup

/-- The group keys are distinct. -/
theorem hoursSorted_nodup (events : List PingEvent) : (hoursSorted events).Nodup :=
  ((hoursSorted_perm events).nodup_iff).mpr (List.nodup_dedup _)

/-- Partitioning a list by a key function over a duplicate-free covering key
list: the per-key filtered lengths sum to the whole length. -/
theorem sum_length_filter_key {α : Type} (f : α → Nat) :
    ∀ (keys : List Nat) (es : List α), (∀ e ∈ es, f e ∈ keys) → keys.Nodup →
    ((keys.map (fun h => (es.filter (fun e => f e == h)).length)).sum = es.length) := by
  intro keys
  induction keys with
  | nil =>
    intro es hcov _
    cases es with
    | nil => rfl
    | cons e tl => exact absurd (hcov e (List.mem_cons_self e tl)) (List.not_mem_nil _)
  | cons k ks ih =>
    intro es hcov hnd
    have hnk : k ∉ ks := (List.nodup_cons.mp hnd).1
    have hnd2 : ks.Nodup := (List.nodup_cons.mp hnd).2
    have hcov2 : ∀ e ∈ es.filter (fun e => !(f e == k)), f e ∈ ks := by
      intro e he
      have hmem := List.mem_filter.mp he
      have hne : ¬(f e = k) := by
        intro heq
        simp [heq] at hmem
      rcases List.mem_cons.mp (hcov e hmem.1) with h1 | h1
      · exact absurd h1 hne
      · exact h1
    have hmap : ks.map (fun h => (es.filter (fun e => f e == h)).length)
        = ks.map (fun h => ((es.filter (fun e => !(f e == k))).filter (fun e => f e == h)).length) := by
      apply List.map_congr_left
      intro h hh
      have hne : h ≠ k := fun he => hnk (he ▸ hh)
      rw [List.filter_filter]
      congr 1
      apply List.filter_congr
      intro e _
      by_cases hfe : f e = h
      · simp [hfe, hne]
      · simp [hfe]
    simp only [List.map_cons, List.sum_cons, hmap]
    rw [ih (es.filter (fun e => !(f e == k))) hcov2 hnd2]
    have hsplit := List.length_eq_length_filter_add (l := es) (fun e => f e == k)
    omega

/-- The `total_pings` field of a bucket row. -/
theorem statFor_total (events : List PingEvent) (h : Nat) :
    (statFor events h).total_pings = (events.filter (fun e => e.hour == h)).length := rfl

/-- The `hour` field of a bucket row. -/
theorem statFor_hour (events : List PingEvent) (h : Nat) : (statFor events h).hour = h := rfl

/-- The `successful_pings` field of a bucket row. -/
theorem statFor_ok (events : List PingEvent) (h : Nat) :
    (statFor events h).successful_pings =
      ((events.filter (fun e => e.hour == h)).filter
        (fun e => e.result == PResult.success)).length := rfl

/-- The `packet_loss_count` field of a bucket row. -/
theorem statFor_loss (events : List PingEvent) (h : Nat) :
    (statFor events h).packet_loss_count =
      (events.filter (fun e => e.hour == h)).length -
      ((events.filter (fun e => e.hour == h)).filter
        (fun e => e.result == PResult.success)).length := rfl

/-- A bucket's loss count is the number of failure events in the bucket. -/
theorem loss_count_eq (events : List PingEvent) (h : Nat) :
    (statFor events h).packet_loss_count =
      ((events.filter (fun e => e.result == PResult.failure)).filter
        (fun e => e.hour == h)).length := by
  rw [statFor_loss]
  have hsplit := List.length_eq_length_filter_add
    (l := events.filter (fun e => e.hour == h)) (fun e => e.result == PResult.success)
  have hco : (events.filter (fun e => e.hour == h)).filter
        (fun e => !(e.result == PResult.success))
      = (events.filter (fun e => e.hour == h)).filter
        (fun e => e.result == PResult.failure) := by
    apply List.filter_congr
    intro e _
    cases e.result <;> rfl
  have hcomm : ((events.filter (fun e => e.hour == h)).filter
        (fun e => e.result == PResult.failure)).length
      = ((events.filter (fun e => e.result == PResult.failure)).filter
        (fun e => e.hour == h)).length := by
    rw [List.filter_filter, List.filter_filter]
    congr 1
    apply List.filter_congr
    intro e _
    exact Bool.and_comm _ _
  rw [← hcomm, ← hco]
  omega

/-- Sum of the hourly totals equals the number of events. -/
theorem sum_total_pings (events : List PingEvent) :
    ((hourlyStats events).map HourlyStat.total_pings).sum = events.length := by
  have hperm : (((hoursSorted events).map
        (fun h => (events.filter (fun e => e.hour == h)).length))).Perm
      (((events.map PingEvent.hour).dedup).map
        (fun h => (events.filter (fun e => e.hour == h)).length)) :=
    (hoursSorted_perm events).map _
  have hpart := sum_length_filter_key PingEvent.hour (events.map PingEvent.hour).dedup events
      (fun e he => List.mem_dedup.mpr (List.mem_map_of_mem _ he)) (List.nodup_dedup _)
  calc ((hourlyStats events).map HourlyStat.total_pings).sum
      = ((hoursSorted events).map
          (fun h => (events.filter (fun e => e.hour == h)).length)).sum := by
        simp only [hourlyStats, List.map_map]
        congr 1
    _ = _ := by rw [hperm.sum_eq, hpart]

/-- Sum of the hourly loss counts equals the total number of failures. -/
theorem sum_loss_counts (events : List PingEvent) :
    ((hourlyStats events).map HourlyStat.packet_loss_count).sum = failLen events := by
  have hperm : (((hoursSorted events).map
        (fun h => ((events.filter (fun e => e.result == PResult.failure)).filter
          (fun e => e.hour == h)).length))).Perm
      (((events.map PingEvent.hour).dedup).map
        (fun h => ((events.filter (fun e => e.result == PResult.failure)).filter
          (fun e => e.hour == h)).length)) :=
    (hoursSorted_perm events).map _
  have hpart := sum_length_filter_key PingEvent.hour (events.map PingEvent.hour).dedup
      (events.filter (fun e => e.result == PResult.failure))
      (fun e he => List.mem_dedup.mpr
        (List.mem_map_of_mem _ ((List.mem_filter.mp he).1))) (List.nodup_dedup _)
  calc ((hourlyStats events).map HourlyStat.packet_loss_count).sum
      = ((hoursSorted events).map
          (fun h => ((events.filter (fun e => e.result == PResult.failure)).filter
            (fun e => e.hour == h)).length)).sum := by
        simp only [hourlyStats, List.map_map]
        congr 1
        apply List.map_congr_left
        intro h _
        exact loss_count_eq events h
    _ = _ := by rw [hperm.sum_eq, hpart]; rfl

/-- One detector step adds at most one (on a failure event, nothing on a
success) to the emitted-plus-live failure mass, and keeps the open run's
count below the live counter. -/
theorem detectStep_mass (events : List PingEvent) (T i : Nat) (s : DetectState)
    (e : PingEvent) (h : CurLe s) :
    CurLe (detectStep events T i s e) ∧
    countMass (detectStep events T i s e) ≤
      countMass s + (if e.result = PResult.failure then 1 else 0) := by
  by_cases hf : e.result = PResult.failure
  · by_cases hT : s.failure_count + 1 = T
    · simp only [detectStep, if_pos hf, if_pos hT, CurLe, countMass]
      constructor
      · intro c hc
        simp only [Option.some.injEq] at hc
        subst hc
        exact Nat.le_of_eq hT.symm
      · omega
    · cases hs : s.current with
      | none =>
        simp only [detectStep, if_pos hf, if_neg hT, hs, CurLe, countMass]
        exact ⟨fun c hc => by simp at hc, by omega⟩
      | some c0 =>
        by_cases hlt : T < s.failure_count + 1
        · simp only [detectStep, if_pos hf, if_neg hT, hs, if_pos hlt, CurLe, countMass]
          constructor
          · intro c hc
            simp only [Option.some.injEq] at hc
            subst hc
            exact Nat.succ_le_succ (h c0 hs)
          · omega
        · simp only [detectStep, if_pos hf, if_neg hT, hs, if_neg hlt, CurLe, countMass]
          constructor
          · intro c hc
            simp only [Option.some.injEq] at hc
            subst hc
            exact Nat.le_succ_of_le (h c0 hs)
          · omega
  · cases hs : s.current with
    | none =>
      simp only [detectStep, if_neg hf, hs, CurLe, countMass]
      exact ⟨fun c hc => by simp at hc, by omega⟩
    | some c0 =>
      simp only [detectStep, if_neg hf, hs, CurLe, countMass]
      constructor
      · intro c hc
        simp at hc
      · have hcle : c0.count ≤ s.failure_count := h c0 hs
        simp only [List.map_append, List.sum_append, List.map_cons, List.sum_cons,
          List.map_nil, List.sum_nil]
        have hcd : (closeDisc c0 e.timestamp).count = c0.count := rfl
        omega

/-- The detector loop adds at most one unit of mass per failure event. -/
theorem detectGo_mass (events : List PingEvent) (T : Nat) :
    ∀ (rest : List PingEvent) (i : Nat) (s : DetectState), CurLe s →
    countMass (detectGo events T i rest s) ≤ countMass s + failLen rest ∧
    CurLe (detectGo events T i rest s) := by
  intro rest
  induction rest with
  | nil => intro i s h; exact ⟨Nat.le_add_right _ _, h⟩
  | cons e rest ih =>
    intro i s h
    obtain ⟨hc, hm⟩ := detectStep_mass events T i s e h
    obtain ⟨ihm, ihc⟩ := ih (i + 1) (detectStep events T i s e) hc
    have hfl : failLen (e :: rest)
        = (if e.result = PResult.failure then 1 else 0) + failLen rest := by
      by_cases hf : e.result = PResult.failure
      · simp only [failLen, List.filter_cons, hf]
        simp
        omega
      · simp [failLen, List.filter_cons, hf]
    constructor
    · simp only [detectGo]
      refine le_trans ihm ?_
      omega
    · simp only [detectGo]
      exact ihc

/-- The emitted failure counts sum to at most the number of failure
events. -/
theorem sum_disc_counts_le (events : List PingEvent) (T : Nat) :
    ((analyze_disconnections events T).map Disconnection.count).sum ≤ failLen events := by
  have hinit : CurLe initState := fun c hc => by cases hc
  obtain ⟨hm, hc⟩ := detectGo_mass events T events 0 initState hinit
  have hm2 : countMass (detectLoop events T) ≤ failLen events := by
    have h0 : countMass initState = 0 := rfl
    calc countMass (detectLoop events T)
        = countMass (detectGo events T 0 events initState) := rfl
      _ ≤ countMass initState + failLen events := hm
      _ = failLen events := by rw [h0, Nat.zero_add]
  have hmass : countMass (detectLoop events T)
      = ((detectLoop events T).out.map Disconnection.count).sum
        + (detectLoop events T).failure_count := rfl
  simp only [analyze_disconnections]
  cases hcur : (detectLoop events T).current with
  | none =>
    show (((detectLoop events T).out.map Disconnection.count).sum : Nat) ≤ failLen events
    omega
  | some c =>
    have hcle : c.count ≤ (detectLoop events T).failure_count := hc c hcur
    simp only [List.map_append, List.sum_append, List.map_cons, List.sum_cons,
      List.map_nil, List.sum_nil]
    have hcd : (closeDisc c (lastTs events)).count = c.count := rfl
    omega

/-- C6: the hourly totals sum to the number of events, and the hourly
failure counts sum to at least the total emitted disconnection failure
count (short sub-threshold streaks count as hourly failures but never as
disconnections). -/
theorem conservation_totals_and_failures (events : List PingEvent) (T : Nat) :
    ((hourlyStats events).map HourlyStat.total_pings).sum = events.length ∧
    ((analyze_disconnections events T).map Disconnection.count).sum ≤
      ((hourlyStats events).map HourlyStat.packet_loss_count).sum := by
  refine ⟨sum_total_pings events, ?_⟩
  rw [sum_loss_counts]
  exact sum_disc_counts_le events T

/-- C7: the hourly aggregation has exactly one row per distinct observed
hour bucket (no synthesized gap hours), and each row satisfies
`total = successes + failures`, has a positive total, and carries
`loss_rate = failures / total * 100`. -/
theorem hourly_stats_shape (events : List PingEvent) :
    ((hourlyStats events).map HourlyStat.hour).Nodup ∧
    (∀ h, h ∈ (hourlyStats events).map HourlyStat.hour ↔ h ∈ events.map PingEvent.hour) ∧
    ∀ st ∈ hourlyStats events,
      st.total_pings = st.successful_pings + st.packet_loss_count ∧
      0 < st.total_pings ∧
      st.packet_loss_rate = (st.packet_loss_count : Rat) / (st.total_pings : Rat) * 100 := by
  have hmap : (hourlyStats events).map HourlyStat.hour = hoursSorted events := by
    simp only [hourlyStats, List.map_map]
    have : HourlyStat.hour ∘ statFor events = id := by
      funext h
      rfl
    rw [this, List.map_id]
  refine ⟨?_, ?_, ?_⟩
  · rw [hmap]
    exact hoursSorted_nodup events
  · intro h
    rw [hmap]
    exact mem_hoursSorted events h
  · intro st hst
    obtain ⟨h, hh, rfl⟩ := List.mem_map.mp hst
    have hpos : 0 < (statFor events h).total_pings := by
      rw [statFor_total]
      obtain ⟨e, he, hhe⟩ := List.mem_map.mp ((mem_hoursSorted events h).mp hh)
      have : e ∈ events.filter (fun e => e.hour == h) :=
        List.mem_filter.mpr ⟨he, by simp [hhe]⟩
      exact List.length_pos.mpr (List.ne_nil_of_mem this)
    refine ⟨?_, hpos, rfl⟩
    rw [statFor_total, statFor_ok, statFor_loss]
    have hle := List.length_filter_le (fun e => e.result == PResult.success)
      (events.filter (fun e => e.hour == h))
    omega

/-- Witness for `hourly_stats_shape` at the §8 concrete scenario: hour
bucket 0 is observed, hence present among the rows. -/
theorem hourly_stats_shape_witness :
    (0 : Nat) ∈ (hourlyStats [failAt 0, failAt 1, failAt 2, succAt 3]).map HourlyStat.hour :=
  ((hourly_stats_shape [failAt 0, failAt 1, failAt 2, succAt 3]).2.1 0).mpr (by decide)

/-- `startsWith` is exactly prefix decomposition. -/
theorem startsWith_iff_append (pat : List Char) :
    ∀ cs, startsWith pat cs = true ↔ ∃ r, cs = pat ++ r := by
  induction pat with
  | nil => intro cs; simp [startsWith]
  | cons p ps ih =>
    intro cs
    cases cs with
    | nil =>
      simp [startsWith]
    | cons c cs2 =>
      simp only [startsWith, Bool.and_eq_true, beq_iff_eq, List.cons_append]
      constructor
      · rintro ⟨rfl, h⟩
        obtain ⟨r, rfl⟩ := (ih cs2).mp h
        exact ⟨r, rfl⟩
      · rintro ⟨r, heq⟩
        injection heq with h1 h2
        exact ⟨h1.symm, (ih cs2).mpr ⟨r, h2⟩⟩

/-- A run of `p`-characters followed by a non-`p` character splits
`takeWhile`/`dropWhile` exactly at the junction. -/
theorem takeWhile_append_stop (p : Char → Bool) (digs : List Char) (c : Char) (r : List Char)
    (hall : digs.all p = true) (hc : p c = false) :
    (digs ++ c :: r).takeWhile p = digs ∧ (digs ++ c :: r).dropWhile p = c :: r := by
  induction digs with
  | nil => simp [List.takeWhile_cons, List.dropWhile_cons, hc]
  | cons d ds ih =>
    simp only [List.all_cons, Bool.and_eq_true] at hall
    obtain ⟨h1, h2⟩ := ih hall.2
    simp [List.takeWhile_cons, List.dropWhile_cons, hall.1, h1, h2]

/-- The anchored latency pattern succeeds exactly on strings of the shape
`time=<digits>ms...` with a non-empty digit run. -/
theorem latencyAt_isSome_iff (cs : List Char) :
    (latencyAt cs).isSome = true ↔
    ∃ digs post, cs = timePat ++ (digs ++ (msPat ++ post)) ∧
      digs ≠ [] ∧ digs.all Char.isDigit = true := by
  constructor
  · intro h
    unfold latencyAt at h
    by_cases hsw : startsWith timePat cs = true
    · obtain ⟨r, rfl⟩ := (startsWith_iff_append timePat cs).mp hsw
      rw [if_pos hsw] at h
      have hdrop : (timePat ++ r).drop 5 = r := rfl
      rw [hdrop] at h
      by_cases hemp : (r.takeWhile Char.isDigit).isEmpty = true
      · rw [if_pos hemp] at h
        simp at h
      · rw [if_neg hemp] at h
        by_cases hms : startsWith msPat (r.dropWhile Char.isDigit) = true
        · obtain ⟨post, hpost⟩ := (startsWith_iff_append msPat _).mp hms
          refine ⟨r.takeWhile Char.isDigit, post, ?_, ?_, ?_⟩
          · have hsplit : r.takeWhile Char.isDigit ++ r.dropWhile Char.isDigit = r :=
              List.takeWhile_append_dropWhile _ _
            calc timePat ++ r
                = timePat ++ (r.takeWhile Char.isDigit ++ r.dropWhile Char.isDigit) := by
                  rw [hsplit]
              _ = timePat ++ (r.takeWhile Char.isDigit ++ (msPat ++ post)) := by rw [hpost]
          · intro hnil
            rw [hnil] at hemp
            exact hemp rfl
          · have : ∀ x ∈ r.takeWhile Char.isDigit, Char.isDigit x = true :=
              fun x hx => List.mem_takeWhile_imp hx
            exact List.all_eq_true.mpr this
        · rw [if_neg hms] at h
          simp at h
    · rw [if_neg hsw] at h
      simp at h
  · rintro ⟨digs, post, rfl, hne, hall⟩
    unfold latencyAt
    have hsw : startsWith timePat (timePat ++ (digs ++ (msPat ++ post))) = true :=
      (startsWith_iff_append timePat _).mpr ⟨_, rfl⟩
    rw [if_pos hsw]
    have hdrop : (timePat ++ (digs ++ (msPat ++ post))).drop 5 = digs ++ (msPat ++ post) := rfl
    rw [hdrop]
    have hms2 : digs ++ (msPat ++ post) = digs ++ ('m' :: 's' :: post) := rfl
    obtain ⟨htk, hdw⟩ := takeWhile_append_stop Char.isDigit digs 'm' ('s' :: post) hall rfl
    have hemp : digs.isEmpty = false := by
      cases digs with
      | nil => exact absurd rfl hne
      | cons d ds => rfl
    have hms3 : startsWith msPat ('m' :: 's' :: post) = true :=
      (startsWith_iff_append msPat _).mpr ⟨post, rfl⟩
    simp only [hdrop, hms2, htk, hdw]
    simp [hemp, hms3]

/-- `re.search` over the whole line: a latency is found iff the pattern
occurs somewhere in the line. -/
theorem findLatency_isSome_iff :
    ∀ cs : List Char, (findLatency cs).isSome = true ↔
    ∃ pre digs post, cs = pre ++ (timePat ++ (digs ++ (msPat ++ post))) ∧
      digs ≠ [] ∧ digs.all Char.isDigit = true := by
  intro cs
  induction cs with
  | nil =>
    simp only [findLatency, Option.isSome_none, Bool.false_eq_true, false_iff]
    rintro ⟨pre, digs, post, heq, hne, hall⟩
    have := heq.symm
    rw [List.append_eq_nil] at this
    have h2 := this.2
    rw [List.append_eq_nil] at h2
    exact absurd h2.1 (by decide : timePat ≠ [])
  | cons c cs2 ih =>
    constructor
    · intro h
      unfold findLatency at h
      cases hla : latencyAt (c :: cs2) with
      | some n =>
        obtain ⟨digs, post, heq, hne, hall⟩ :=
          (latencyAt_isSome_iff (c :: cs2)).mp (by rw [hla]; rfl)
        exact ⟨[], digs, post, by rw [← heq]; rfl, hne, hall⟩
      | none =>
        rw [hla] at h
        obtain ⟨pre, digs, post, heq, hne, hall⟩ := ih.mp h
        exact ⟨c :: pre, digs, post, by rw [List.cons_append, ← heq], hne, hall⟩
    · rintro ⟨pre, digs, post, heq, hne, hall⟩
      unfold findLatency
      cases pre with
      | nil =>
        have hla : (latencyAt (c :: cs2)).isSome = true :=
          (latencyAt_isSome_iff (c :: cs2)).mpr ⟨digs, post, by rw [heq]; rfl, hne, hall⟩
        cases hla2 : latencyAt (c :: cs2) with
        | some n => rfl
        | none => rw [hla2] at hla; exact absurd hla (by simp)
      | cons p pre2 =>
        injection heq with h1 h2
        have hfl : (findLatency cs2).isSome = true := ih.mpr ⟨pre2, digs, post, h2, hne, hall⟩
        cases hla2 : latencyAt (c :: cs2) with
        | some n => rfl
        | none => exact hfl


/-- C8 (counterexample to the claim as stated): this line begins with the
exact 19-character `YYYY/MM/DD HH:MM:SS` digit shape — the timestamp regex
prefix matches — yet it yields no `ProbeEvent` (and is not silently skipped
either: it is dropped with a printed warning), because `strptime` rejects
month 13 at line 28. -/
theorem timestamp_shape_not_sufficient :
    (tsForm (stripChars badMonthLine)).isSome = true ∧
    parseLine badMonthLine = LineResult.warned :=
  ⟨rfl, rfl⟩

/-- C8 (amended): a line yields a `ProbeEvent` iff it begins (after
stripping) with the timestamp shape *and* the captured fields form a valid
calendar date-time (shape-matching lines with invalid fields are dropped
with a warning; all other lines are silently skipped); a qualifying line is
`Success` iff it contains `"Reply from"`; a success's latency is the result
of the `time=<digits>ms` search — present iff the pattern occurs in the
line — and a failure's latency is always unset. -/
theorem parse_line_classification :
    (∀ raw : List Char,
      ((∃ e, parseLine raw = LineResult.ev e) ↔
        (∃ f, tsForm (stripChars raw) = some f ∧ validDT f = true)) ∧
      (∀ e, parseLine raw = LineResult.ev e →
        (e.result = PResult.success ↔ containsSub replyPat (stripChars raw) = true) ∧
        (e.result = PResult.success → e.response_time = findLatency (stripChars raw)) ∧
        (e.result = PResult.failure → e.response_time = none))) ∧
    (∀ cs : List Char, (findLatency cs).isSome = true ↔
      ∃ pre digs post, cs = pre ++ (timePat ++ (digs ++ (msPat ++ post))) ∧
        digs ≠ [] ∧ digs.all Char.isDigit = true) := by
  refine ⟨?_, findLatency_isSome_iff⟩
  intro raw
  cases hts : tsForm (stripChars raw) with
  | none =>
    constructor
    · simp [parseLine, hts]
    · intro e he
      simp [parseLine, hts] at he
  | some f =>
    by_cases hv : validDT f = true
    · by_cases hrep : containsSub replyPat (stripChars raw) = true
      · have hpe : parseLine raw = LineResult.ev
            { timestamp := toSeconds f, result := PResult.success
            , response_time := findLatency (stripChars raw) } := by
          simp [parseLine, hts, hv, hrep]
        constructor
        · exact ⟨fun _ => ⟨f, rfl, hv⟩, fun _ => ⟨_, hpe⟩⟩
        · intro e he
          rw [hpe] at he
          injection he with he2
          subst he2
          refine ⟨by simp [hrep], fun _ => rfl, fun hfail => ?_⟩
          exact absurd hfail (by simp)
      · have hpe : parseLine raw = LineResult.ev
            { timestamp := toSeconds f, result := PResult.failure
            , response_time := none } := by
          simp [parseLine, hts, hv, hrep]
        constructor
        · exact ⟨fun _ => ⟨f, rfl, hv⟩, fun _ => ⟨_, hpe⟩⟩
        · intro e he
          rw [hpe] at he
          injection he with he2
          subst he2
          refine ⟨by simp [hrep], fun hsucc => ?_, fun _ => rfl⟩
          exact absurd hsucc (by simp)
    · have hpe : parseLine raw = LineResult.warned := by
        simp [parseLine, hts, hv]
      constructor
      · constructor
        · rintro ⟨e, he⟩
          rw [hpe] at he
          exact absurd he (by simp)
        · rintro ⟨f2, hf2, hvf2⟩
          rw [Option.some_inj] at hf2
          subst hf2
          exact absurd hvf2 hv
      · intro e he
        rw [hpe] at he
        exact absurd he (by simp)

/-- Witness for `parse_line_classification` at a concrete reply line. -/
theorem parse_line_classification_witness :
    parseLine sampleReplyLine = LineResult.ev
      { timestamp := 0, result := PResult.success, response_time := some 5 } ∧
    (({ timestamp := 0, result := PResult.success, response_time := some 5 } : PingEvent).result
        = PResult.success ↔ containsSub replyPat (stripChars sampleReplyLine) = true) :=
  ⟨rfl, ((parse_line_classification.1 sampleReplyLine).2 _ rfl).1⟩


/-- `df.iloc[k]['timestamp']` for an in-range index. -/
theorem tsAt_eq (events : List PingEvent) (k : Nat) (hk : k < events.length) :
    tsAt events k = (events[k]).timestamp := by
  simp [tsAt, List.getElem?_eq_getElem hk]

/-- `df.iloc[-1]['timestamp']` for a nonempty frame. -/
theorem lastTs_eq (events : List PingEvent) (hne : 0 < events.length) :
    lastTs events = (events[events.length - 1]).timestamp := by
  have h1 : events.length - 1 < events.length := by omega
  simp [lastTs, List.getLast?_eq_getElem? events, List.getElem?_eq_getElem h1]

/-- Intro rule for `OrderInv` on an explicit state. -/
theorem orderInv_intro (events : List PingEvent) (i fc : Nat) (cur : Option OpenDisc)
    (out : List Disconnection)
    (h1 : fc ≤ i) (h2 : i ≤ events.length)
    (h3 : out.Pairwise (fun a b => a.end_time < b.start_time))
    (h4 : ∀ d ∈ out, d.start_time ≤ d.end_time)
    (h5 : ∀ d ∈ out, ∀ k, i - fc ≤ k → ∀ hk : k < events.length,
      d.end_time < (events[k]).timestamp)
    (h6 : ∀ c, cur = some c →
      (∀ d ∈ out, d.end_time < c.start_time) ∧
      (∃ j, ∃ hj : j < events.length, j < i ∧ c.start_time = (events[j]).timestamp)) :
    OrderInv events i { failure_count := fc, current := cur, out := out } :=
  ⟨h1, h2, h3, h4, h5, h6⟩

/-- One detector step preserves the non-overlap/ordering invariant on a
strictly chronological stream. -/
theorem detectStep_orderInv (events : List PingEvent) (T i : Nat) (s : DetectState)
    (e : PingEvent) (hmono : StrictTimes events) (hi : i < events.length)
    (he : events[i] = e) (h : OrderInv events i s) :
    OrderInv events (i + 1) (detectStep events T i s e) := by
  have hidx : ∀ (j k : Nat), ∀ hj : j < events.length, ∀ hk : k < events.length, j < k →
      (events[j]).timestamp < (events[k]).timestamp :=
    fun j k hj hk hjk => List.pairwise_iff_getElem.mp hmono j k hj hk hjk
  obtain ⟨hfcLe, hiLe, houtPair, houtSE, houtFuture, hcurr⟩ := h
  by_cases hf : e.result = PResult.failure
  · by_cases hT : s.failure_count + 1 = T
    · simp only [detectStep, if_pos hf, if_pos hT]
      have hib : i - s.failure_count < events.length := by omega
      have hidx0 : i + 1 - T = i - s.failure_count := by omega
      refine orderInv_intro events (i + 1) _ _ _ (by omega) (by omega) houtPair houtSE ?_ ?_
      · intro d hd k hk hklen
        exact houtFuture d hd k (by omega) hklen
      · intro c hc
        simp only [Option.some.injEq] at hc
        subst hc
        refine ⟨?_, i - s.failure_count, hib, by omega, ?_⟩
        · intro d hd
          show d.end_time < tsAt events (i + 1 - T)
          rw [hidx0, tsAt_eq events _ hib]
          exact houtFuture d hd (i - s.failure_count) (le_refl _) hib
        · show tsAt events (i + 1 - T) = (events[i - s.failure_count]).timestamp
          rw [hidx0, tsAt_eq events _ hib]
    · cases hs : s.current with
      | none =>
        simp only [detectStep, if_pos hf, if_neg hT, hs]
        refine orderInv_intro events (i + 1) _ _ _ (by omega) (by omega) houtPair houtSE ?_ ?_
        · intro d hd k hk hklen
          exact houtFuture d hd k (by omega) hklen
        · intro c hc
          simp at hc
      | some c0 =>
        simp only [detectStep, if_pos hf, if_neg hT, hs]
        obtain ⟨hall0, j0, hj0, hj0i, hts0⟩ := hcurr c0 hs
        by_cases hlt : T < s.failure_count + 1
        · simp only [if_pos hlt]
          refine orderInv_intro events (i + 1) _ _ _ (by omega) (by omega) houtPair houtSE ?_ ?_
          · intro d hd k hk hklen
            exact houtFuture d hd k (by omega) hklen
          · intro c hc
            simp only [Option.some.injEq] at hc
            subst hc
            exact ⟨hall0, j0, hj0, by omega, hts0⟩
        · simp only [if_neg hlt]
          refine orderInv_intro events (i + 1) _ _ _ (by omega) (by omega) houtPair houtSE ?_ ?_
          · intro d hd k hk hklen
            exact houtFuture d hd k (by omega) hklen
          · intro c hc
            simp only [Option.some.injEq] at hc
            subst hc
            exact ⟨hall0, j0, hj0, by omega, hts0⟩
  · cases hs : s.current with
    | none =>
      simp only [detectStep, if_neg hf, hs]
      refine orderInv_intro events (i + 1) _ _ _ (by omega) (by omega) houtPair houtSE ?_ ?_
      · intro d hd k hk hklen
        exact houtFuture d hd k (by omega) hklen
      · intro c hc
        simp at hc
    | some c0 =>
      simp only [detectStep, if_neg hf, hs]
      obtain ⟨hall0, j0, hj0, hj0i, hts0⟩ := hcurr c0 hs
      have hstrict : c0.start_time < e.timestamp := by
        rw [hts0, ← he]
        exact hidx j0 i hj0 hi hj0i
      refine orderInv_intro events (i + 1) _ _ _ (by omega) (by omega) ?_ ?_ ?_ ?_
      · rw [List.pairwise_append]
        refine ⟨houtPair, List.pairwise_singleton _ _, ?_⟩
        intro a ha b hb
        rw [List.mem_singleton] at hb
        subst hb
        exact hall0 a ha
      · intro d hd
        rcases List.mem_append.mp hd with hd | hd
        · exact houtSE d hd
        · rw [List.mem_singleton] at hd
          subst hd
          exact le_of_lt hstrict
      · intro d hd k hk hklen
        rcases List.mem_append.mp hd with hd | hd
        · exact houtFuture d hd k (by omega) hklen
        · rw [List.mem_singleton] at hd
          subst hd
          have hlt2 : (events[i]).timestamp < (events[k]).timestamp :=
            hidx i k hi hklen (by omega)
          rw [he] at hlt2
          exact hlt2
      · intro c hc
        simp at hc

/-- The detector loop preserves the invariant down the whole stream. -/
theorem detectGo_orderInv (events : List PingEvent) (T : Nat) (hmono : StrictTimes events) :
    ∀ (rest : List PingEvent) (i : Nat) (s : DetectState),
      events.drop i = rest → OrderInv events i s →
      OrderInv events events.length (detectGo events T i rest s) := by
  intro rest
  induction rest with
  | nil =>
    intro i s hdrop h
    have hlen : events.length ≤ i := List.drop_eq_nil_iff.mp hdrop
    have heq : i = events.length := le_antisymm h.iLe hlen
    subst heq
    exact h
  | cons e rest ih =>
    intro i s hdrop h
    have hi : i < events.length := by
      by_contra hc
      rw [List.drop_eq_nil_iff.mpr (by omega)] at hdrop
      exact List.noConfusion hdrop
    rw [List.drop_eq_getElem_cons hi] at hdrop
    injection hdrop with he hrest
    simp only [detectGo]
    exact ih (i + 1) _ hrest (detectStep_orderInv events T i s e hmono hi he h)

/-- Strengthen chained non-overlap to strict start ordering, given
`start ≤ end` per element. -/
theorem pairwise_start_lt (l : List Disconnection)
    (hp : l.Pairwise (fun a b => a.end_time < b.start_time))
    (hse : ∀ d ∈ l, d.start_time ≤ d.end_time) :
    l.Pairwise (fun a b => a.start_time < b.start_time) := by
  rw [List.pairwise_iff_getElem] at hp ⊢
  intro a b ha hb hab
  exact lt_of_le_of_lt (hse _ (List.getElem_mem ha)) (hp a b ha hb hab)

/-- C5 (amended): on a strictly chronologically increasing event stream the
emitted disconnections are pairwise disjoint in time (each run ends strictly
before the next begins) and strictly ordered by `start_time`. -/
theorem disconnections_ordered (events : List PingEvent) (T : Nat)
    (h : StrictTimes events) :
    List.Pairwise (fun a b : Disconnection => a.end_time < b.start_time)
      (analyze_disconnections events T) ∧
    List.Pairwise (fun a b : Disconnection => a.start_time < b.start_time)
      (analyze_disconnections events T) := by
  have hinit : OrderInv events 0 initState := by
    refine orderInv_intro events 0 0 none [] (le_refl _) (Nat.zero_le _)
      List.Pairwise.nil ?_ ?_ ?_
    · intro d hd
      exact absurd hd (List.not_mem_nil d)
    · intro d hd
      exact absurd hd (List.not_mem_nil d)
    · intro c hc
      cases hc
  have hinv : OrderInv events events.length (detectLoop events T) :=
    detectGo_orderInv events T h events 0 initState rfl hinit
  obtain ⟨hfcLe, hiLe, houtPair, houtSE, houtFuture, hcurr⟩ := hinv
  have hmain : List.Pairwise (fun a b : Disconnection => a.end_time < b.start_time)
        (analyze_disconnections events T) ∧
      ∀ d ∈ analyze_disconnections events T, d.start_time ≤ d.end_time := by
    simp only [analyze_disconnections]
    cases hcur : (detectLoop events T).current with
    | none => exact ⟨houtPair, houtSE⟩
    | some c =>
      obtain ⟨hall0, j0, hj0, hj0i, hts0⟩ := hcurr c hcur
      have hne : 0 < events.length := by omega
      have hj0le : j0 ≤ events.length - 1 := by omega
      have hstart_le : c.start_time ≤ (events[events.length - 1]).timestamp := by
        rcases Nat.lt_or_ge j0 (events.length - 1) with hlt | hge
        · exact le_of_lt (hts0 ▸ List.pairwise_iff_getElem.mp h j0 (events.length - 1)
            hj0 (by omega) hlt)
        · have : j0 = events.length - 1 := by omega
          subst this
          exact le_of_eq hts0
      constructor
      · rw [List.pairwise_append]
        refine ⟨houtPair, List.pairwise_singleton _ _, ?_⟩
        intro a ha b hb
        rw [List.mem_singleton] at hb
        subst hb
        exact hall0 a ha
      · intro d hd
        rcases List.mem_append.mp hd with hd | hd
        · exact houtSE d hd
        · rw [List.mem_singleton] at hd
          subst hd
          show c.start_time ≤ lastTs events
          rw [lastTs_eq events hne]
          exact hstart_le
  exact ⟨hmain.1, pairwise_start_lt _ hmain.1 hmain.2⟩

/-- Witness for `disconnections_ordered` on the two-run strictly increasing
stream. -/
theorem disconnections_ordered_witness :
    StrictTimes exTwoRuns ∧
    List.Pairwise (fun a b : Disconnection => a.end_time < b.start_time)
      (analyze_disconnections exTwoRuns 3) :=
  ⟨by unfold StrictTimes; decide
  , (disconnections_ordered exTwoRuns 3 (by unfold StrictTimes; decide)).1⟩

/-- C5 (counterexample to the claim as stated): with merely non-decreasing
timestamps (seven probes sharing one timestamp, two threshold-3 runs split
by a success) the detector emits two disconnections with equal
`start_time`, so the output is not strictly ordered by `start_time`, and
their identical single-point intervals overlap. -/
theorem same_timestamp_runs_not_strict :
    NonDecTimes exSameTs ∧
    analyze_disconnections exSameTs 3 =
      [{ start_time := 0, end_time := 0, duration := 0, count := 3 },
       { start_time := 0, end_time := 0, duration := 0, count := 3 }] ∧
    ¬ List.Pairwise (fun a b : Disconnection => a.start_time < b.start_time)
        (analyze_disconnections exSameTs 3) :=
  ⟨by unfold NonDecTimes; decide, rfl, by decide⟩


end PingAnalyzer
